import Mathlib

/-!
A shallow embedding of the concatenative combinator interpreter of this
repository (file `src/unnamed/part_003`, the minimal variant adopted by the
specification): the Value model, the smart constructor `catenate`, the
printer, the reader `read`, and the gas-bounded reducer `evaluate` with its
three-stack machine state and suspension (`thunk`) protocol.

Stacks are Lean lists with the top at the head (the source uses growable
arrays with the top at the end; `getCode(0)` is the head here).  Pushing a
sequence in the source reverses it in place and appends, so that the first
element ends up on top; here that is list append at the head.  The
dictionary is an association list keyed by strings, threaded through the
reducer (the source mutates a `Map` in place).  The `Unknown` exception is
modelled by an `Except` error result.
-/

inductive Value where
  | id : Value
  | constant (name : String) : Value
  | var (name : String) : Value
  | catenate (children : List Value) : Value
  | quote (body : Value) : Value
  | text (value : String) : Value
  | prompt (value : String) : Value

/-- The `body` accessor: only a Quote has a body (`NoSuchProperty`
otherwise, modelled by `none`). -/
def Value.body? : Value → Option Value
  | .quote b => some b
  | _ => none

/-- The `text` accessor: only a Text has a text payload. -/
def Value.text? : Value → Option String
  | .text s => some s
  | _ => none

/-- One argument of the smart constructor `catenate`: an Id argument is
dropped, the children of a Catenate argument are spliced in, anything else
is kept. -/
def splice : Value → List Value
  | .id => []
  | .catenate cs => cs
  | v => [v]

/-- The buffer built by the loop inside `catenate`. -/
def spliceAll : List Value → List Value
  | [] => []
  | v :: vs => splice v ++ spliceAll vs

/-- The smart constructor `catenate(...values)`: drop Id arguments, splice
Catenate arguments; an empty buffer gives Id, otherwise a Catenate of the
buffer (the source has no special case for a single remaining element). -/
def catenate (values : List Value) : Value :=
  match spliceAll values with
  | [] => .id
  | buf => .catenate buf

mutual

/-- The printer `toString`, producing the character list of the rendering:
Id renders empty, names render themselves, a Catenate joins its children
with single spaces, a Quote brackets its body, Text and Prompt wrap their
payloads in their delimiters. -/
def printV : Value → List Char
  | .id => []
  | .constant n => n.data
  | .var n => n.data
  | .catenate cs => printList cs
  | .quote b => '[' :: printV b ++ [']']
  | .text s => '"' :: s.data ++ ['"']
  | .prompt s => '\x7b' :: s.data ++ ['\x7d']

/-- Children of a Catenate rendered and joined by single spaces. -/
def printList : List Value → List Char
  | [] => []
  | [v] => printV v
  | v :: vs => printV v ++ ' ' :: printList vs

end

/-- The printer, as a string. -/
def Value.toString (v : Value) : String := String.mk (printV v)

/-! ### The reader -/

/-- The whitespace class of the source's `/\s/` regex. -/
def isWS (c : Char) : Bool :=
  decide ((9 ≤ c.toNat ∧ c.toNat ≤ 13) ∨ c.toNat = 32 ∨ c.toNat = 160 ∨
    c.toNat = 5760 ∨ (8192 ≤ c.toNat ∧ c.toNat ≤ 8202) ∨ c.toNat = 8232 ∨
    c.toNat = 8233 ∨ c.toNat = 8239 ∨ c.toNat = 8287 ∨ c.toNat = 12288 ∨
    c.toNat = 65279)

/-- Separator test `_isSeparator`: whitespace or a square bracket. -/
def isSep (c : Char) : Bool :=
  isWS c || decide (c.toNat = 91) || decide (c.toNat = 93)

/-- The `\w` class of the name regexes together with `-`. -/
def isWordChar (c : Char) : Bool :=
  decide ((48 ≤ c.toNat ∧ c.toNat ≤ 57) ∨ (65 ≤ c.toNat ∧ c.toNat ≤ 90) ∨
    (97 ≤ c.toNat ∧ c.toNat ≤ 122) ∨ c.toNat = 95 ∨ c.toNat = 45)

/-- An ASCII uppercase letter (the `[A-Z]` class). -/
def isUpperA (c : Char) : Bool := decide (65 ≤ c.toNat ∧ c.toNat ≤ 90)

/-- An ASCII lowercase letter (the `[a-z]` class). -/
def isLowerA (c : Char) : Bool := decide (97 ≤ c.toNat ∧ c.toNat ≤ 122)

/-- The Constant name regex `^[A-Z][\w-]*$`. -/
def isConstName : List Char → Bool
  | [] => false
  | c :: cs => isUpperA c && cs.all isWordChar

/-- The Variable name regex `^[a-z][\w-]*$`. -/
def isVarName : List Char → Bool
  | [] => false
  | c :: cs => isLowerA c && cs.all isWordChar

/-- Scan for a closing delimiter: the payload before the first occurrence
of `stop` and the remainder after it, or `none` when `stop` never occurs
(the unbalanced-delimiter case). -/
def splitAtChar (stop : Char) : List Char → Option (List Char × List Char)
  | [] => none
  | c :: cs =>
    if c = stop then some ([], cs)
    else
      match splitAtChar stop cs with
      | none => none
      | some (p, r) => some (c :: p, r)

theorem splitAtChar_length {stop : Char} :
    ∀ {l p r : List Char}, splitAtChar stop l = some (p, r) →
      p.length + r.length + 1 = l.length := by
  intro l
  induction l with
  | nil => intro p r h; simp [splitAtChar] at h
  | cons c cs ih =>
    intro p r h
    rw [splitAtChar] at h
    by_cases hc : c = stop
    · simp [hc] at h
      obtain ⟨hp, hr⟩ := h
      subst hp; subst hr
      simp
    · simp [hc] at h
      cases hsp : splitAtChar stop cs with
      | none => rw [hsp] at h; simp at h
      | some pr =>
        rw [hsp] at h
        obtain ⟨p', r'⟩ := pr
        simp at h
        obtain ⟨hp, hr⟩ := h
        subst hp; subst hr
        have := ih hsp
        simp [List.length_cons]
        omega

theorem length_dropWhile_le (p : Char → Bool) (l : List Char) :
    (l.dropWhile p).length ≤ l.length := by
  induction l with
  | nil => simp [List.dropWhile]
  | cons c cs ih =>
    rw [List.dropWhile]
    cases p c
    · simp
    · simp
      omega

/-- The reader's linear scan: `build` holds the siblings accumulated so
far, `stack` the saved sibling lists of the enclosing open brackets.
Errors carry the reason string of the corresponding `Unreadable`. -/
def readAux : List Char → List Value → List (List Value) → Except String Value
  | [], build, stack =>
    match stack with
    | [] => .ok (catenate build)
    | _ :: _ => .error "Unbalanced brackets"
  | c :: cs, build, stack =>
    if isWS c then readAux (cs.dropWhile isWS) build stack
    else if c = '[' then readAux cs [] (build :: stack)
    else if c = ']' then
      match stack with
      | [] => .error "Unbalanced brackets"
      | parent :: rest => readAux cs (parent ++ [Value.quote (catenate build)]) rest
    else if c = '"' then
      match hsp : splitAtChar '"' cs with
      | none => .error "Unbalanced quotes"
      | some (payload, rest) =>
        readAux rest (build ++ [Value.text (String.mk payload)]) stack
    else if c = '\x7b' then
      match hsp : splitAtChar '\x7d' cs with
      | none => .error "Unbalanced braces"
      | some (payload, rest) =>
        readAux rest (build ++ [Value.prompt (String.mk payload)]) stack
    else
      let tok := c :: cs.takeWhile (fun d => !isSep d)
      let rest := cs.dropWhile (fun d => !isSep d)
      if isUpperA c then
        if isConstName tok then
          readAux rest (build ++ [Value.constant (String.mk tok)]) stack
        else .error "Unknown symbol"
      else
        if isVarName tok then
          readAux rest (build ++ [Value.var (String.mk tok)]) stack
        else .error "Unknown symbol"
termination_by src _ _ => src.length
decreasing_by
  · have := length_dropWhile_le isWS cs; simp; omega
  · simp
  · simp
  · have := splitAtChar_length hsp; simp; omega
  · have := splitAtChar_length hsp; simp; omega
  · have := length_dropWhile_le (fun d => !isSep d) cs; simp; omega
  · have := length_dropWhile_le (fun d => !isSep d) cs; simp; omega

/-- Entry point `read`: scan the whole source; the result is `catenate` of the
top-level sibling list.  (Namespaced as the callers do: `script.read`;
a bare `read` is ambiguous with the monadic reader of the library.) -/
def Script.read (src : String) : Except String Value := readAux src.data [] []

/-! ### The machine -/

/-- The per-client dictionary: a keyed mapping from names to Values (the
source uses a `Map`; keys are unique). -/
abbrev Dict := List (String × Value)

def dictGet (d : Dict) (k : String) : Option Value :=
  match d with
  | [] => none
  | (k', v) :: rest => if k' = k then some v else dictGet rest k

def dictSet (d : Dict) (k : String) (v : Value) : Dict :=
  match d with
  | [] => [(k, v)]
  | (k', v') :: rest =>
    if k' = k then (k, v) :: rest else (k', v') :: dictSet rest k v

def dictDelete (d : Dict) (k : String) : Dict :=
  match d with
  | [] => []
  | (k', v') :: rest => if k' = k then rest else (k', v') :: dictDelete rest k

/-- The three-stack machine configuration (top of each stack at the head;
`sink` is kept in emission order). -/
structure State where
  code : List Value
  data : List Value
  sink : List Value

/-- Initialisation `new State(value)`: one initial code item, empty data and sink. -/
def State.init (v : Value) : State := ⟨[v], [], []⟩

/-- The suspension protocol: flush all of data into the sink (bottom to
top), then move the current top of code into the sink. -/
def State.thunk : State → State
  | ⟨[], data, sink⟩ => ⟨[], [], sink ++ data.reverse⟩
  | ⟨c :: rest, data, sink⟩ => ⟨rest, [], sink ++ data.reverse ++ [c]⟩

/-- The `Shift` scan of the code stack from position 1 upward: the items
before the first Constant named `Reset` (in reading order) and the items
after it, or `none` when no such Constant exists (`NoShift`). -/
def splitReset : List Value → Option (List Value × List Value)
  | [] => none
  | v :: vs =>
    match v with
    | .constant n =>
      if n = "Reset" then some ([], vs)
      else
        match splitReset vs with
        | none => none
        | some (buf, rest) => some (v :: buf, rest)
    | _ =>
      match splitReset vs with
      | none => none
      | some (buf, rest) => some (v :: buf, rest)

/-- The one hard failure of the reducer (the thrown `Unknown` Panic),
carrying the offending value at the top of code. -/
inductive EvalErr where
  | unknown (hand : Value)

/-- Outcome of one iteration of the dispatch loop: `next` continues the
loop, `halt` sets the gas to zero so the loop exits with the given
configuration, `fail` throws. -/
inductive Step where
  | next (s : State) (d : Option Dict)
  | halt (s : State) (d : Option Dict)
  | fail (e : EvalErr)

/-- One iteration of the dispatch loop of `evaluate`, for a non-empty code
stack: inspect the top of code and dispatch on its variant; a Constant
dispatches on its name through the combinator switch (a name matching no
case falls through with no effect, as the source's switch has no default
branch). -/
def step (s : State) (d : Option Dict) : Step :=
  match s.code with
  | [] => .halt s d
  | hand :: rest =>
    match hand with
    | .catenate cs => .next ⟨cs ++ rest, s.data, s.sink⟩ d
    | .var n =>
      match d with
      | none => .halt s.thunk d
      | some dict =>
        match dictGet dict n with
        | none => .halt s.thunk d
        | some b => .next ⟨b :: rest, s.data, s.sink⟩ d
    | .quote b => .next ⟨rest, .quote b :: s.data, s.sink⟩ d
    | .text t => .next ⟨rest, .text t :: s.data, s.sink⟩ d
    | .prompt _ => .halt s.thunk d
    | .id => .fail (.unknown .id)
    | .constant nm =>
      match nm with
      | "Copy" =>
        match s.data with
        | [] => .next s.thunk d
        | v :: ds => .next ⟨rest, v :: v :: ds, s.sink⟩ d
      | "Drop" =>
        match s.data with
        | [] => .next s.thunk d
        | _ :: ds => .next ⟨rest, ds, s.sink⟩ d
      | "Swap" =>
        match s.data with
        | t :: u :: ds => .next ⟨rest, u :: t :: ds, s.sink⟩ d
        | _ => .next s.thunk d
      | "Cat" =>
        match s.data with
        | t :: u :: ds =>
          match u.body?, t.body? with
          | some lhs, some rhs =>
            .next ⟨.quote (catenate [lhs, rhs]) :: rest, ds, s.sink⟩ d
          | _, _ => .next s.thunk d
        | _ => .next s.thunk d
      | "Abs" =>
        match s.data with
        | [] => .next s.thunk d
        | v :: ds => .next ⟨rest, .quote v :: ds, s.sink⟩ d
      | "App" =>
        match s.data with
        | t :: ds =>
          match t.body? with
          | some b => .next ⟨b :: rest, ds, s.sink⟩ d
          | none => .halt s.thunk d
        | [] => .halt s.thunk d
      | "Inl" =>
        match s.data with
        | t :: u :: w :: ds =>
          match w.body?, u.body? with
          | some lhs, some _ => .next ⟨lhs :: rest, t :: ds, s.sink⟩ d
          | _, _ => .halt s.thunk d
        | _ => .halt s.thunk d
      | "Inr" =>
        match s.data with
        | t :: u :: w :: ds =>
          match w.body?, u.body? with
          | some _, some rhs => .next ⟨rhs :: rest, t :: ds, s.sink⟩ d
          | _, _ => .halt s.thunk d
        | _ => .halt s.thunk d
      | "Pair" =>
        match s.data with
        | t :: u :: ds =>
          .next ⟨rest, .quote (catenate [u, t]) :: ds, s.sink⟩ d
        | _ => .next s.thunk d
      | "Shift" =>
        match s.data with
        | t :: ds =>
          match t.body? with
          | some h =>
            match splitReset rest with
            | some (buf, cont) =>
              .next ⟨h :: cont, .quote (catenate buf) :: ds, s.sink⟩ d
            | none => .halt s.thunk d
          | none => .halt s.thunk d
        | [] => .halt s.thunk d
      | "Reset" => .halt s.thunk d
      | "Define" =>
        match d with
        | none => .halt s.thunk d
        | some dict =>
          match s.data with
          | t :: u :: ds =>
            match t.text?, u.body? with
            | some nm', some b => .next ⟨rest, ds, s.sink⟩ (some (dictSet dict nm' b))
            | _, _ => .halt s.thunk d
          | _ => .halt s.thunk d
      | "Delete" =>
        match d with
        | none => .halt s.thunk d
        | some dict =>
          match s.data with
          | t :: ds =>
            match t.text? with
            | some nm' => .next ⟨rest, ds, s.sink⟩ (some (dictDelete dict nm'))
            | none => .halt s.thunk d
          | [] => .halt s.thunk d
      | _ => .next s d

/-- The step loop: while code is non-empty and gas remains, run one
dispatch iteration.  Returns the final configuration (or the thrown
error) together with the number of dispatch iterations executed. -/
def evalIter : Nat → State → Option Dict → Except EvalErr (State × Option Dict) × Nat
  | 0, s, d => (.ok (s, d), 0)
  | gas + 1, s, d =>
    match s.code with
    | [] => (.ok (s, d), 0)
    | _ :: _ =>
      match step s d with
      | .next s' d' =>
        let r := evalIter gas s' d'
        (r.1, r.2 + 1)
      | .halt s' d' => (.ok (s', d'), 1)
      | .fail e => (.error e, 1)

/-- Residual construction: `catenate` of the sink (in order), the data
stack bottom to top, and the code stack top first. -/
def State.residual (s : State) : Value :=
  catenate (s.sink ++ s.data.reverse ++ s.code)

/-- Reduction `evaluate(init, dictionary?, gas)` on an already parsed Value: run the
step loop and render the residual; a thrown `Unknown` surfaces as an
error. -/
def evaluate (init : Value) (d : Option Dict) (gas : Nat) : Except EvalErr Value :=
  match (evalIter gas (.init init) d).1 with
  | .ok (s, _) => .ok s.residual
  | .error e => .error e

/-- The dictionary as left by `evaluate` (the source mutates it in
place). -/
def evaluateDict (init : Value) (d : Option Dict) (gas : Nat) : Option Dict :=
  match (evalIter gas (.init init) d).1 with
  | .ok (_, d') => d'
  | .error _ => d

/-! ### Helper lemmas -/

theorem spliceAll_append (u v : List Value) :
    spliceAll (u ++ v) = spliceAll u ++ spliceAll v := by
  induction u with
  | nil => simp [spliceAll]
  | cons a u ih => simp [spliceAll, ih]

theorem evalIter_steps_le : ∀ (g : Nat) (s : State) (d : Option Dict),
    (evalIter g s d).2 ≤ g := by
  intro g
  induction g with
  | zero => intro s d; simp [evalIter]
  | succ n ih =>
    intro s d
    simp only [evalIter]
    split
    · simp
    · split
      · rename_i s' d' _
        have := ih s' d'
        simp
        omega
      · simp
      · simp

/-! ### Claim C6: the smart constructor -/

/-- Claim C6 counterexample: the source's `catenate` has no special case
for a single remaining element; `catenate([A])` is a Catenate with the
single child `A`, not `A` itself, refuting "if exactly one element remains
it returns that element itself". -/
theorem catenate_single_cex :
    catenate [Value.constant "A"] = Value.catenate [Value.constant "A"] ∧
      Value.catenate [Value.constant "A"] ≠ Value.constant "A" := by
  constructor
  · rfl
  · intro h
    exact Value.noConfusion h

/-- Claim C6 (amended): `catenate` splices the children of any Catenate
argument (one level) and drops all Id arguments, keeping every other
argument; if zero elements remain it returns Id, and otherwise it returns
a Catenate of the remaining elements — even when exactly one element
remains. -/
theorem catenate_splices_and_drops :
    (∀ u v : List Value, spliceAll (u ++ v) = spliceAll u ++ spliceAll v) ∧
    (∀ cs, spliceAll [Value.catenate cs] = cs) ∧
    (spliceAll [Value.id] = []) ∧
    (∀ v, v ≠ Value.id → (∀ cs, v ≠ Value.catenate cs) → spliceAll [v] = [v]) ∧
    (∀ values, spliceAll values = [] → catenate values = Value.id) ∧
    (∀ values, spliceAll values ≠ [] →
      catenate values = Value.catenate (spliceAll values)) := by
  refine ⟨spliceAll_append, fun cs => by simp [spliceAll, splice], rfl, ?_, ?_, ?_⟩
  · intro v hid hcat
    cases v with
    | id => exact absurd rfl hid
    | catenate cs => exact absurd rfl (hcat cs)
    | constant n => rfl
    | var n => rfl
    | quote b => rfl
    | text s => rfl
    | prompt s => rfl
  · intro values h
    unfold catenate
    rw [h]
  · intro values h
    unfold catenate
    cases hv : spliceAll values with
    | nil => exact absurd hv h
    | cons a l => rfl

/-- Claim C6 witness: the amended theorem applied at the concrete argument
list `[Constant "A"]`. -/
theorem catenate_splices_and_drops_witness :
    catenate [Value.constant "A"] = Value.catenate [Value.constant "A"] :=
  catenate_splices_and_drops.2.2.2.2.2 [Value.constant "A"] (by simp [spliceAll, splice])

/-! ### Claim C8: gas boundedness -/

/-- Claim C8 (confirmed): for every initial value, dictionary and gas, the
dispatch loop of `evaluate` executes at most `gas` iterations (the
iteration count is the second component of `evalIter`). -/
theorem evaluate_gas_bound (x : Value) (d : Option Dict) (g : Nat) :
    (evalIter g (State.init x) d).2 ≤ g :=
  evalIter_steps_le g (State.init x) d

/-! ### Claims C1 and C2: totality and the Unknown failure -/

/-- Claim C1 (code_bug): the empty string parses to Id and Id renders as
the empty string, but `evaluate` applied to Id with any positive gas
throws the Unknown Panic instead of returning Id: the dispatch chain has
no case for Id at the top of code, so Id falls into the `else` branch that
throws. -/
theorem evaluate_id_throws_unknown :
    Script.read "" = .ok Value.id ∧
    Value.toString Value.id = "" ∧
    (∀ g : Nat, evaluate Value.id none (g + 1) = .error (.unknown Value.id)) ∧
    evaluate Value.id none 1000000 = .error (.unknown Value.id) := by
  refine ⟨?_, rfl, fun g => rfl, rfl⟩
  simp [Script.read, readAux]
  rfl

/-- Claim C2 (code_bug): a Constant whose name is not in the combinator
table does not raise Unknown: the switch has no default branch, so the
configuration is left unchanged and the loop spins until all gas is
consumed, returning the residual `Foo`; and Unknown is raised with Id (not
a Constant) at the top of code. -/
theorem unknown_name_spins_unknown_for_id :
    (∀ g : Nat, evalIter g (State.init (Value.constant "Foo")) none =
      (.ok (State.init (Value.constant "Foo"), none), g)) ∧
    (∀ g : Nat, evaluate (Value.constant "Foo") none g =
      .ok (Value.catenate [Value.constant "Foo"])) ∧
    evaluate Value.id none 1000000 = .error (.unknown Value.id) := by
  have spin : ∀ g : Nat, evalIter g (State.init (Value.constant "Foo")) none =
      (.ok (State.init (Value.constant "Foo"), none), g) := by
    intro g
    induction g with
    | zero => rfl
    | succ n ih =>
      have hstep : evalIter (n + 1) (State.init (Value.constant "Foo")) none =
          ((evalIter n (State.init (Value.constant "Foo")) none).1,
            (evalIter n (State.init (Value.constant "Foo")) none).2 + 1) := rfl
      rw [hstep, ih]
  refine ⟨spin, ?_, rfl⟩
  intro g
  unfold evaluate
  rw [spin g]
  rfl

/-! ### Claim C5: which suspensions stop reduction -/

/-- Claim C5 counterexample: when `Inl` thunks for lack of data the
reducer does NOT continue with the remaining code: on `Inl [x] Drop` with
100 gas only 2 dispatch iterations run (the splice and the failing `Inl`,
which zeroes the gas), leaving `[x]` and `Drop` unexecuted in the
residual; had the reducer continued, `Drop` would have consumed `[x]`. -/
theorem inl_fail_stops_cex :
    evalIter 100 (State.init (catenate [Value.constant "Inl",
        Value.quote (Value.var "x"), Value.constant "Drop"])) none =
      (.ok (⟨[Value.quote (Value.var "x"), Value.constant "Drop"], [],
        [Value.constant "Inl"]⟩, none), 2) ∧
    (evaluate (catenate [Value.constant "Inl", Value.quote (Value.var "x"),
        Value.constant "Drop"]) none 100).map Value.toString =
      .ok "Inl [x] Drop" :=
  ⟨rfl, rfl⟩

/-- Claim C5 (amended): after a thunk the reducer continues (gas not
zeroed) exactly for the stack-starved combinators Copy, Drop, Swap, Cat,
Abs and Pair, and stops (gas zeroed) for the terminal suspensions: Prompt,
unresolved Variable, Reset, and failing App, Inl, Inr, Shift, Define or
Delete.  (The claim listed Inl and Inr among the continuing combinators;
in the source both zero the gas on failure.) -/
theorem thunk_stop_policy :
    ∀ (rest data sink : List Value) (d : Option Dict) (dict : Dict)
      (n m : String),
    (step ⟨Value.constant "Copy" :: rest, [], sink⟩ d =
      .next (State.thunk ⟨Value.constant "Copy" :: rest, [], sink⟩) d) ∧
    (step ⟨Value.constant "Drop" :: rest, [], sink⟩ d =
      .next (State.thunk ⟨Value.constant "Drop" :: rest, [], sink⟩) d) ∧
    (step ⟨Value.constant "Swap" :: rest, [], sink⟩ d =
      .next (State.thunk ⟨Value.constant "Swap" :: rest, [], sink⟩) d) ∧
    (step ⟨Value.constant "Cat" :: rest, [], sink⟩ d =
      .next (State.thunk ⟨Value.constant "Cat" :: rest, [], sink⟩) d) ∧
    (step ⟨Value.constant "Cat" :: rest,
        Value.text m :: Value.text n :: data, sink⟩ d =
      .next (State.thunk ⟨Value.constant "Cat" :: rest,
        Value.text m :: Value.text n :: data, sink⟩) d) ∧
    (step ⟨Value.constant "Abs" :: rest, [], sink⟩ d =
      .next (State.thunk ⟨Value.constant "Abs" :: rest, [], sink⟩) d) ∧
    (step ⟨Value.constant "Pair" :: rest, [], sink⟩ d =
      .next (State.thunk ⟨Value.constant "Pair" :: rest, [], sink⟩) d) ∧
    (step ⟨Value.constant "App" :: rest, [], sink⟩ d =
      .halt (State.thunk ⟨Value.constant "App" :: rest, [], sink⟩) d) ∧
    (step ⟨Value.constant "Inl" :: rest, [], sink⟩ d =
      .halt (State.thunk ⟨Value.constant "Inl" :: rest, [], sink⟩) d) ∧
    (step ⟨Value.constant "Inr" :: rest, [], sink⟩ d =
      .halt (State.thunk ⟨Value.constant "Inr" :: rest, [], sink⟩) d) ∧
    (step ⟨Value.constant "Shift" :: rest, [], sink⟩ d =
      .halt (State.thunk ⟨Value.constant "Shift" :: rest, [], sink⟩) d) ∧
    (step ⟨Value.constant "Reset" :: rest, data, sink⟩ d =
      .halt (State.thunk ⟨Value.constant "Reset" :: rest, data, sink⟩) d) ∧
    (step ⟨Value.prompt m :: rest, data, sink⟩ d =
      .halt (State.thunk ⟨Value.prompt m :: rest, data, sink⟩) d) ∧
    (step ⟨Value.var n :: rest, data, sink⟩ none =
      .halt (State.thunk ⟨Value.var n :: rest, data, sink⟩) none) ∧
    (dictGet dict n = none →
      step ⟨Value.var n :: rest, data, sink⟩ (some dict) =
        .halt (State.thunk ⟨Value.var n :: rest, data, sink⟩) (some dict)) ∧
    (step ⟨Value.constant "Define" :: rest, data, sink⟩ none =
      .halt (State.thunk ⟨Value.constant "Define" :: rest, data, sink⟩) none) ∧
    (step ⟨Value.constant "Define" :: rest, [], sink⟩ (some dict) =
      .halt (State.thunk ⟨Value.constant "Define" :: rest, [], sink⟩)
        (some dict)) ∧
    (step ⟨Value.constant "Delete" :: rest, data, sink⟩ none =
      .halt (State.thunk ⟨Value.constant "Delete" :: rest, data, sink⟩) none) ∧
    (step ⟨Value.constant "Delete" :: rest, [], sink⟩ (some dict) =
      .halt (State.thunk ⟨Value.constant "Delete" :: rest, [], sink⟩)
        (some dict)) := by
  intro rest data sink d dict n m
  refine ⟨rfl, rfl, rfl, rfl, rfl, rfl, rfl, rfl, rfl, rfl, rfl, rfl, rfl,
    rfl, ?_, rfl, rfl, rfl, rfl⟩
  intro hget
  simp [step, hget]

/-- Claim C5 witness: the unresolved-Variable conjunct applied at the
empty dictionary and the name `x`. -/
theorem thunk_stop_policy_witness :
    step ⟨[Value.var "x"], [], []⟩ (some []) =
      .halt (State.thunk ⟨[Value.var "x"], [], []⟩) (some []) :=
  (thunk_stop_policy [] [] [] none [] "x" "m").2.2.2.2.2.2.2.2.2.2.2.2.2.2.1 rfl

/-! ### Claim C3: Shift capture -/

/-- Claim C3 (confirmed): when `Shift` fires with a Quote handler on top
of data, it captures the code items from position 1 up to (but not
including) the nearest Constant named `Reset` as a single Quote in reading
order, pushes that Quote onto data, consumes the scanned slice including
the `Reset`, and pushes the handler body onto code; concretely, with no
dictionary, `[handler] Shift body0 body1 body2 Reset` renders
`[body0 body1 body2] handler`. -/
theorem shift_captures_continuation :
    (∀ (rest buf after ds sink : List Value) (d : Option Dict) (h : Value),
      splitReset rest = some (buf, after) →
      step ⟨Value.constant "Shift" :: rest, Value.quote h :: ds, sink⟩ d =
        .next ⟨h :: after, Value.quote (catenate buf) :: ds, sink⟩ d) ∧
    (∀ buf after : List Value, (∀ v ∈ buf, v ≠ Value.constant "Reset") →
      splitReset (buf ++ Value.constant "Reset" :: after) =
        some (buf, after)) ∧
    (Script.read "[handler] Shift body0 body1 body2 Reset" =
      .ok (Value.catenate [Value.quote (Value.catenate [Value.var "handler"]),
        Value.constant "Shift", Value.var "body0", Value.var "body1",
        Value.var "body2", Value.constant "Reset"])) ∧
    ((evaluate (Value.catenate
        [Value.quote (Value.catenate [Value.var "handler"]),
         Value.constant "Shift", Value.var "body0", Value.var "body1",
         Value.var "body2", Value.constant "Reset"]) none 1000000).map
      Value.toString = .ok "[body0 body1 body2] handler") := by
  refine ⟨?_, ?_, ?_, rfl⟩
  · intro rest buf after ds sink d h hsplit
    simp [step, Value.body?, hsplit]
  · intro buf
    induction buf with
    | nil => intro after _; simp [splitReset]
    | cons v vs ih =>
      intro after hmem
      have hv : v ≠ Value.constant "Reset" := hmem v (by simp)
      have hvs : ∀ w ∈ vs, w ≠ Value.constant "Reset" := by
        intro w hw; exact hmem w (by simp [hw])
      cases v with
      | constant nm =>
        have hnm : nm ≠ "Reset" := by
          intro hh; exact hv (by rw [hh])
        simp [splitReset, hnm, ih after hvs]
      | id => simp [splitReset, ih after hvs]
      | var nm => simp [splitReset, ih after hvs]
      | catenate cs => simp [splitReset, ih after hvs]
      | quote b => simp [splitReset, ih after hvs]
      | text s => simp [splitReset, ih after hvs]
      | prompt s => simp [splitReset, ih after hvs]
  · simp +decide [Script.read, readAux]
    rfl

/-- Claim C3 witness: the firing rule applied at the concrete
configuration `[h] Shift b0 Reset`, and the scan applied at the slice
`b0 · Reset`. -/
theorem shift_captures_continuation_witness :
    step ⟨[Value.constant "Shift", Value.var "b0", Value.constant "Reset"],
        [Value.quote (Value.var "h")], []⟩ none =
      .next ⟨[Value.var "h"],
        [Value.quote (catenate [Value.var "b0"])], []⟩ none ∧
    splitReset [Value.var "b0", Value.constant "Reset"] =
      some ([Value.var "b0"], []) :=
  ⟨shift_captures_continuation.1 [Value.var "b0", Value.constant "Reset"]
      [Value.var "b0"] [] [] [] none (Value.var "h") rfl,
    shift_captures_continuation.2.1 [Value.var "b0"] []
      (by intro v hv; simp at hv; subst hv; intro h; exact Value.noConfusion h)⟩

/-! ### Claim C7: the Inl equation -/

/-- Claim C7 counterexample: under the minimal variant, the program
`[inl] [inr] [value] Inl App` renders `[value] inl App`, not
`[value] inl`: the unresolved variable `inl` thunk-stops reduction before
the trailing `App` can run, so `App` stays in the residual. -/
theorem inl_app_render_cex :
    Script.read "[inl] [inr] [value] Inl App" =
      .ok (Value.catenate [Value.quote (Value.catenate [Value.var "inl"]),
        Value.quote (Value.catenate [Value.var "inr"]),
        Value.quote (Value.catenate [Value.var "value"]),
        Value.constant "Inl", Value.constant "App"]) ∧
    (evaluate (Value.catenate
        [Value.quote (Value.catenate [Value.var "inl"]),
         Value.quote (Value.catenate [Value.var "inr"]),
         Value.quote (Value.catenate [Value.var "value"]),
         Value.constant "Inl", Value.constant "App"]) none 1000000).map
      Value.toString = .ok "[value] inl App" ∧
    ("[value] inl App" : String) ≠ "[value] inl" := by
  refine ⟨?_, rfl, by decide⟩
  simp +decide [Script.read, readAux]
  rfl

/-- Claim C7 (amended): `Inl` pushes the left branch onto code and
discards the right branch while pushing the selected value back onto
data; with no dictionary the program `[inl] [inr] [value] Inl` (the
minimal variant's own test case, without the trailing `App`) renders
exactly `[value] inl`. -/
theorem inl_selects_left :
    (∀ (rest ds sink : List Value) (d : Option Dict) (t l r : Value),
      step ⟨Value.constant "Inl" :: rest,
          t :: Value.quote r :: Value.quote l :: ds, sink⟩ d =
        .next ⟨l :: rest, t :: ds, sink⟩ d) ∧
    (Script.read "[inl] [inr] [value] Inl" =
      .ok (Value.catenate [Value.quote (Value.catenate [Value.var "inl"]),
        Value.quote (Value.catenate [Value.var "inr"]),
        Value.quote (Value.catenate [Value.var "value"]),
        Value.constant "Inl"])) ∧
    ((evaluate (Value.catenate
        [Value.quote (Value.catenate [Value.var "inl"]),
         Value.quote (Value.catenate [Value.var "inr"]),
         Value.quote (Value.catenate [Value.var "value"]),
         Value.constant "Inl"]) none 1000000).map
      Value.toString = .ok "[value] inl") := by
  refine ⟨fun rest ds sink d t l r => rfl, ?_, rfl⟩
  simp +decide [Script.read, readAux]
  rfl

/-! ### Claim C10: thunking Define and Delete leave the dictionary alone -/

/-- Claim C10 (confirmed): if `Define` or `Delete` is the current
instruction but thunks — no dictionary supplied, too few data items, the
top of data not a Text, or (for Define) the second item without a body —
the step leaves the dictionary component completely unchanged. -/
theorem define_delete_thunk_keeps_dict :
    ∀ (rest ds data sink : List Value) (dict : Dict) (v u : Value)
      (nm : String),
    (step ⟨Value.constant "Define" :: rest, data, sink⟩ none =
      .halt (State.thunk ⟨Value.constant "Define" :: rest, data, sink⟩)
        none) ∧
    (step ⟨Value.constant "Define" :: rest, [], sink⟩ (some dict) =
      .halt (State.thunk ⟨Value.constant "Define" :: rest, [], sink⟩)
        (some dict)) ∧
    (v.text? = none →
      step ⟨Value.constant "Define" :: rest, v :: ds, sink⟩ (some dict) =
        .halt (State.thunk ⟨Value.constant "Define" :: rest, v :: ds, sink⟩)
          (some dict)) ∧
    (step ⟨Value.constant "Define" :: rest, [Value.text nm], sink⟩
        (some dict) =
      .halt (State.thunk ⟨Value.constant "Define" :: rest,
        [Value.text nm], sink⟩) (some dict)) ∧
    (u.body? = none →
      step ⟨Value.constant "Define" :: rest, Value.text nm :: u :: ds, sink⟩
          (some dict) =
        .halt (State.thunk ⟨Value.constant "Define" :: rest,
          Value.text nm :: u :: ds, sink⟩) (some dict)) ∧
    (step ⟨Value.constant "Delete" :: rest, data, sink⟩ none =
      .halt (State.thunk ⟨Value.constant "Delete" :: rest, data, sink⟩)
        none) ∧
    (step ⟨Value.constant "Delete" :: rest, [], sink⟩ (some dict) =
      .halt (State.thunk ⟨Value.constant "Delete" :: rest, [], sink⟩)
        (some dict)) ∧
    (v.text? = none →
      step ⟨Value.constant "Delete" :: rest, v :: ds, sink⟩ (some dict) =
        .halt (State.thunk ⟨Value.constant "Delete" :: rest, v :: ds, sink⟩)
          (some dict)) := by
  intro rest ds data sink dict v u nm
  refine ⟨rfl, rfl, ?_, rfl, ?_, rfl, rfl, ?_⟩
  · intro hv
    cases ds with
    | nil => simp [step, hv]
    | cons u' ds' => simp [step, hv]
  · intro hu
    simp [step, hu, Value.text?]
  · intro hv
    simp [step, hv]

/-- Claim C10 witness: the third conjunct applied with a Quote (which has
no text payload) on top of data. -/
theorem define_delete_thunk_keeps_dict_witness :
    step ⟨[Value.constant "Define"], [Value.quote Value.id], []⟩ (some []) =
      .halt (State.thunk ⟨[Value.constant "Define"],
        [Value.quote Value.id], []⟩) (some []) :=
  (define_delete_thunk_keeps_dict [] [] [] [] [] (Value.quote Value.id)
    Value.id "x").2.2.1 rfl

/-! ### Claim C9: the parse/print round trip.

Well-formedness of reader output: every value produced by `Script.read` is
either Id or a Catenate of atoms, where an atom is a Constant or Variable
whose name matches its regex, a Text whose payload has no `"`, a Prompt
whose payload has no closing brace, or a Quote whose body is again Id or a
Catenate of atoms. -/

mutual

/-- An atom as appended to the reader's `build` list. -/
def wfAtom : Value → Bool
  | .constant n => isConstName n.data
  | .var n => isVarName n.data
  | .text s => s.data.all (fun c => !(c = '"'))
  | .prompt s => s.data.all (fun c => !(c = '\x7d'))
  | .quote b => wfBody b
  | _ => false

/-- The shape of `catenate` applied to a list of atoms: Id or a non-empty
flat Catenate of atoms. -/
def wfBody : Value → Bool
  | .id => true
  | .catenate l => !l.isEmpty && wfAtoms l
  | _ => false

/-- Every element is an atom. -/
def wfAtoms : List Value → Bool
  | [] => true
  | v :: vs => wfAtom v && wfAtoms vs

end

/-- The continuation after a printed fragment: empty or starting with a
separator, so that a scanned name token ends exactly at the fragment. -/
def sepOrNil : List Char → Bool
  | [] => true
  | c :: _ => isSep c

/-! Character class facts. -/

theorem isUpperA_not_ws {c : Char} (h : isUpperA c = true) : isWS c = false := by
  simp [isUpperA] at h
  simp [isWS]
  omega

theorem isLowerA_not_ws {c : Char} (h : isLowerA c = true) : isWS c = false := by
  simp [isLowerA] at h
  simp [isWS]
  omega

theorem isLowerA_not_upper {c : Char} (h : isLowerA c = true) :
    isUpperA c = false := by
  simp [isLowerA] at h
  simp [isUpperA]
  omega

theorem isWordChar_not_sep {c : Char} (h : isWordChar c = true) :
    isSep c = false := by
  simp [isWordChar] at h
  simp [isSep, isWS]
  omega

theorem isUpperA_ne {c : Char} (h : isUpperA c = true) :
    c ≠ '[' ∧ c ≠ ']' ∧ c ≠ '"' ∧ c ≠ '\x7b' := by
  refine ⟨?_, ?_, ?_, ?_⟩ <;> intro hh <;> subst hh <;> simp [isUpperA] at h

theorem isLowerA_ne {c : Char} (h : isLowerA c = true) :
    c ≠ '[' ∧ c ≠ ']' ∧ c ≠ '"' ∧ c ≠ '\x7b' := by
  refine ⟨?_, ?_, ?_, ?_⟩ <;> intro hh <;> subst hh <;> simp [isLowerA] at h

/-! Unfolding lemmas for the reader, one per branch. -/

theorem readAux_nil_nil (build : List Value) :
    readAux [] build [] = .ok (catenate build) := by
  rw [readAux.eq_def]

theorem readAux_nil_cons (build parent : List Value)
    (st : List (List Value)) :
    readAux [] build (parent :: st) = .error "Unbalanced brackets" := by
  rw [readAux.eq_def]

theorem readAux_ws {c : Char} (h : isWS c = true) (cs : List Char)
    (build : List Value) (stack : List (List Value)) :
    readAux (c :: cs) build stack = readAux (cs.dropWhile isWS) build stack := by
  rw [readAux.eq_def]
  simp [h]

theorem readAux_open (cs : List Char) (build : List Value)
    (stack : List (List Value)) :
    readAux ('[' :: cs) build stack = readAux cs [] (build :: stack) := by
  rw [readAux.eq_def]
  simp +decide

theorem readAux_close (cs : List Char) (build parent : List Value)
    (st : List (List Value)) :
    readAux (']' :: cs) build (parent :: st) =
      readAux cs (parent ++ [Value.quote (catenate build)]) st := by
  rw [readAux.eq_def]
  simp +decide

theorem readAux_close_nil (cs : List Char) (build : List Value) :
    readAux (']' :: cs) build [] = .error "Unbalanced brackets" := by
  rw [readAux.eq_def]
  simp +decide

theorem readAux_text {cs p r : List Char}
    (h : splitAtChar '"' cs = some (p, r)) (build : List Value)
    (stack : List (List Value)) :
    readAux ('"' :: cs) build stack =
      readAux r (build ++ [Value.text (String.mk p)]) stack := by
  rw [readAux.eq_def]
  simp +decide
  split
  · rename_i heq
    rw [h] at heq
    cases heq
  · rename_i payload rest heq
    rw [h] at heq
    simp at heq
    obtain ⟨hp, hr⟩ := heq
    subst hp
    subst hr
    rfl

theorem readAux_text_err {cs : List Char} (h : splitAtChar '"' cs = none)
    (build : List Value) (stack : List (List Value)) :
    readAux ('"' :: cs) build stack = .error "Unbalanced quotes" := by
  rw [readAux.eq_def]
  simp +decide
  split
  · rfl
  · rename_i payload rest heq
    rw [h] at heq
    cases heq

theorem readAux_prompt {cs p r : List Char}
    (h : splitAtChar '\x7d' cs = some (p, r)) (build : List Value)
    (stack : List (List Value)) :
    readAux ('\x7b' :: cs) build stack =
      readAux r (build ++ [Value.prompt (String.mk p)]) stack := by
  rw [readAux.eq_def]
  simp +decide
  split
  · rename_i heq
    rw [h] at heq
    cases heq
  · rename_i payload rest heq
    rw [h] at heq
    simp at heq
    obtain ⟨hp, hr⟩ := heq
    subst hp
    subst hr
    rfl

theorem readAux_prompt_err {cs : List Char}
    (h : splitAtChar '\x7d' cs = none) (build : List Value)
    (stack : List (List Value)) :
    readAux ('\x7b' :: cs) build stack = .error "Unbalanced braces" := by
  rw [readAux.eq_def]
  simp +decide
  split
  · rfl
  · rename_i payload rest heq
    rw [h] at heq
    cases heq

theorem readAux_upper {c : Char} (hup : isUpperA c = true) (cs : List Char)
    (hconst : isConstName (c :: cs.takeWhile (fun d => !isSep d)) = true)
    (build : List Value) (stack : List (List Value)) :
    readAux (c :: cs) build stack =
      readAux (cs.dropWhile (fun d => !isSep d))
        (build ++ [Value.constant
          (String.mk (c :: cs.takeWhile (fun d => !isSep d)))]) stack := by
  obtain ⟨h1, h2, h3, h4⟩ := isUpperA_ne hup
  rw [readAux.eq_def]
  simp [isUpperA_not_ws hup, h1, h2, h3, h4, hup, hconst]

theorem readAux_upper_err {c : Char} (hup : isUpperA c = true)
    (cs : List Char)
    (hconst : isConstName (c :: cs.takeWhile (fun d => !isSep d)) = false)
    (build : List Value) (stack : List (List Value)) :
    readAux (c :: cs) build stack = .error "Unknown symbol" := by
  obtain ⟨h1, h2, h3, h4⟩ := isUpperA_ne hup
  rw [readAux.eq_def]
  simp [isUpperA_not_ws hup, h1, h2, h3, h4, hup, hconst]

theorem readAux_lower {c : Char} (hws : isWS c = false) (h1 : c ≠ '[')
    (h2 : c ≠ ']') (h3 : c ≠ '"') (h4 : c ≠ '\x7b')
    (hup : isUpperA c = false) (cs : List Char)
    (hvar : isVarName (c :: cs.takeWhile (fun d => !isSep d)) = true)
    (build : List Value) (stack : List (List Value)) :
    readAux (c :: cs) build stack =
      readAux (cs.dropWhile (fun d => !isSep d))
        (build ++ [Value.var
          (String.mk (c :: cs.takeWhile (fun d => !isSep d)))]) stack := by
  rw [readAux.eq_def]
  simp [hws, h1, h2, h3, h4, hup, hvar]

theorem readAux_lower_err {c : Char} (hws : isWS c = false) (h1 : c ≠ '[')
    (h2 : c ≠ ']') (h3 : c ≠ '"') (h4 : c ≠ '\x7b')
    (hup : isUpperA c = false) (cs : List Char)
    (hvar : isVarName (c :: cs.takeWhile (fun d => !isSep d)) = false)
    (build : List Value) (stack : List (List Value)) :
    readAux (c :: cs) build stack = .error "Unknown symbol" := by
  rw [readAux.eq_def]
  simp [hws, h1, h2, h3, h4, hup, hvar]

/-! Scanning and printing facts used by the round trip. -/

theorem token_scan (cs' : List Char) (z : List Char)
    (hall : cs'.all isWordChar = true) (hz : sepOrNil z = true) :
    (cs' ++ z).takeWhile (fun d => !isSep d) = cs' ∧
      (cs' ++ z).dropWhile (fun d => !isSep d) = z := by
  induction cs' with
  | nil =>
    simp only [List.nil_append]
    cases z with
    | nil => simp
    | cons c t =>
      simp only [sepOrNil] at hz
      simp [List.takeWhile_cons, List.dropWhile_cons, hz]
  | cons a t ih =>
    simp only [List.all_cons, Bool.and_eq_true] at hall
    have hsep := isWordChar_not_sep hall.1
    have := ih hall.2
    simp [List.takeWhile_cons, List.dropWhile_cons, hsep, this.1, this.2]

theorem splitAtChar_first {stop : Char} (p r : List Char)
    (h : p.all (fun c => !(c = stop)) = true) :
    splitAtChar stop (p ++ stop :: r) = some (p, r) := by
  induction p with
  | nil => simp [splitAtChar]
  | cons c t ih =>
    simp only [List.all_cons, Bool.and_eq_true] at h
    have hc : ¬ c = stop := by
      intro hh
      rw [hh] at h
      simp at h
    simp only [List.cons_append, splitAtChar, if_neg hc, List.append_eq]
    rw [ih h.2]

theorem splitAtChar_not_mem {stop : Char} :
    ∀ {l p r : List Char}, splitAtChar stop l = some (p, r) →
      p.all (fun c => !(c = stop)) = true := by
  intro l
  induction l with
  | nil => intro p r h; simp [splitAtChar] at h
  | cons c cs ih =>
    intro p r h
    rw [splitAtChar] at h
    by_cases hc : c = stop
    · simp [hc] at h
      obtain ⟨hp, _⟩ := h
      subst hp
      simp
    · simp [hc] at h
      cases hsp : splitAtChar stop cs with
      | none => rw [hsp] at h; simp at h
      | some pr =>
        rw [hsp] at h
        obtain ⟨p', r'⟩ := pr
        simp at h
        obtain ⟨hp, _⟩ := h
        subst hp
        have hrec := ih hsp
        simp only [List.all_cons, Bool.and_eq_true]
        constructor
        · simp [hc]
        · exact hrec

theorem wfAtoms_append (a b : List Value) :
    wfAtoms (a ++ b) = (wfAtoms a && wfAtoms b) := by
  induction a with
  | nil => simp [wfAtoms]
  | cons v vs ih => simp [wfAtoms, ih, Bool.and_assoc]

theorem splice_of_atom {v : Value} (h : wfAtom v = true) : splice v = [v] := by
  cases v with
  | id => simp [wfAtom] at h
  | catenate cs => simp [wfAtom] at h
  | constant n => rfl
  | var n => rfl
  | quote b => rfl
  | text s => rfl
  | prompt s => rfl

theorem spliceAll_of_atoms {l : List Value} (h : wfAtoms l = true) :
    spliceAll l = l := by
  induction l with
  | nil => rfl
  | cons v vs ih =>
    simp only [wfAtoms, Bool.and_eq_true] at h
    simp [spliceAll, splice_of_atom h.1, ih h.2]

theorem catenate_of_atoms {l : List Value} (h : wfAtoms l = true)
    (hne : l ≠ []) : catenate l = Value.catenate l := by
  unfold catenate
  rw [spliceAll_of_atoms h]
  cases l with
  | nil => exact absurd rfl hne
  | cons v vs => rfl

theorem wfBody_catenate {l : List Value} (h : wfAtoms l = true) :
    wfBody (catenate l) = true := by
  cases l with
  | nil => rfl
  | cons v vs =>
    rw [catenate_of_atoms h (by simp)]
    simp only [wfBody, Bool.and_eq_true, List.isEmpty_cons, Bool.not_false]
    exact ⟨trivial, h⟩

theorem dropWhile_ws_printV {v : Value} (h : wfAtom v = true)
    (X : List Char) : (printV v ++ X).dropWhile isWS = printV v ++ X := by
  cases v with
  | id => simp [wfAtom] at h
  | catenate cs => simp [wfAtom] at h
  | constant n =>
    simp only [wfAtom] at h
    cases hn : n.data with
    | nil => rw [hn] at h; simp [isConstName] at h
    | cons c t =>
      rw [hn] at h
      simp only [isConstName, Bool.and_eq_true] at h
      simp [printV, hn, List.dropWhile_cons, isUpperA_not_ws h.1]
  | var n =>
    simp only [wfAtom] at h
    cases hn : n.data with
    | nil => rw [hn] at h; simp [isVarName] at h
    | cons c t =>
      rw [hn] at h
      simp only [isVarName, Bool.and_eq_true] at h
      simp [printV, hn, List.dropWhile_cons, isLowerA_not_ws h.1]
  | quote b => simp +decide [printV, List.dropWhile_cons]
  | text s => simp +decide [printV, List.dropWhile_cons]
  | prompt s => simp +decide [printV, List.dropWhile_cons]

theorem dropWhile_ws_printList {v : Value} {vs : List Value}
    (h : wfAtom v = true) (X : List Char) :
    (printList (v :: vs) ++ X).dropWhile isWS = printList (v :: vs) ++ X := by
  cases vs with
  | nil => simpa [printList] using dropWhile_ws_printV h X
  | cons v' vs' =>
    have : printList (v :: v' :: vs') ++ X =
        printV v ++ (' ' :: printList (v' :: vs') ++ X) := by
      simp [printList]
    rw [this, dropWhile_ws_printV h]

theorem value_sizeOf_pos (v : Value) : 1 ≤ sizeOf v := by
  cases v <;> simp

/-- Printing a list of atoms and reading it back appends exactly those
atoms to the build list, provided what follows is empty or starts with a
separator (mutually with the same statement for one atom). -/
theorem parse_print_pair : ∀ n : Nat,
    (∀ v : Value, sizeOf v ≤ n → wfAtom v = true →
      ∀ (X : List Char) (build : List Value) (stack : List (List Value)),
        sepOrNil X = true →
        readAux (printV v ++ X) build stack = readAux X (build ++ [v]) stack) ∧
    (∀ l : List Value, sizeOf l ≤ n → wfAtoms l = true →
      ∀ (X : List Char) (build : List Value) (stack : List (List Value)),
        sepOrNil X = true →
        readAux (printList l ++ X) build stack =
          readAux X (build ++ l) stack) := by
  intro n
  induction n with
  | zero =>
    constructor
    · intro v hv
      exfalso
      have := value_sizeOf_pos v
      omega
    · intro l hl
      exfalso
      cases l <;> simp at hl
  | succ n ih =>
    constructor
    · intro v hv hwf X build stack hX
      cases v with
      | id => simp [wfAtom] at hwf
      | catenate cs => simp [wfAtom] at hwf
      | constant nm =>
        simp only [wfAtom] at hwf
        cases hn : nm.data with
        | nil => rw [hn] at hwf; simp [isConstName] at hwf
        | cons c t =>
          rw [hn] at hwf
          simp only [isConstName, Bool.and_eq_true] at hwf
          have hscan := token_scan t X hwf.2 hX
          have hconst' : isConstName
              (c :: (t ++ X).takeWhile (fun d => !isSep d)) = true := by
            rw [hscan.1]
            simp [isConstName, hwf.1, hwf.2]
          calc readAux (printV (Value.constant nm) ++ X) build stack
              = readAux (c :: (t ++ X)) build stack := by
                simp [printV, hn]
            _ = readAux ((t ++ X).dropWhile (fun d => !isSep d))
                  (build ++ [Value.constant (String.mk
                    (c :: (t ++ X).takeWhile (fun d => !isSep d)))])
                  stack := readAux_upper hwf.1 (t ++ X) hconst' build stack
            _ = readAux X (build ++ [Value.constant nm]) stack := by
                rw [hscan.1, hscan.2, ← hn]
      | var nm =>
        simp only [wfAtom] at hwf
        cases hn : nm.data with
        | nil => rw [hn] at hwf; simp [isVarName] at hwf
        | cons c t =>
          rw [hn] at hwf
          simp only [isVarName, Bool.and_eq_true] at hwf
          have hscan := token_scan t X hwf.2 hX
          have hvar' : isVarName
              (c :: (t ++ X).takeWhile (fun d => !isSep d)) = true := by
            rw [hscan.1]
            simp [isVarName, hwf.1, hwf.2]
          obtain ⟨h1, h2, h3, h4⟩ := isLowerA_ne hwf.1
          calc readAux (printV (Value.var nm) ++ X) build stack
              = readAux (c :: (t ++ X)) build stack := by
                simp [printV, hn]
            _ = readAux ((t ++ X).dropWhile (fun d => !isSep d))
                  (build ++ [Value.var (String.mk
                    (c :: (t ++ X).takeWhile (fun d => !isSep d)))])
                  stack := readAux_lower (isLowerA_not_ws hwf.1) h1 h2 h3 h4
                    (isLowerA_not_upper hwf.1) (t ++ X) hvar' build stack
            _ = readAux X (build ++ [Value.var nm]) stack := by
                rw [hscan.1, hscan.2, ← hn]
      | text s =>
        simp only [wfAtom] at hwf
        have hsplit : splitAtChar '"' (s.data ++ '"' :: X) =
            some (s.data, X) := splitAtChar_first s.data X hwf
        calc readAux (printV (Value.text s) ++ X) build stack
            = readAux ('"' :: (s.data ++ '"' :: X)) build stack := by
              simp [printV]
          _ = readAux X (build ++ [Value.text (String.mk s.data)]) stack :=
              readAux_text hsplit build stack
          _ = readAux X (build ++ [Value.text s]) stack := rfl
      | prompt s =>
        simp only [wfAtom] at hwf
        have hsplit : splitAtChar '\x7d' (s.data ++ '\x7d' :: X) =
            some (s.data, X) := splitAtChar_first s.data X hwf
        calc readAux (printV (Value.prompt s) ++ X) build stack
            = readAux ('\x7b' :: (s.data ++ '\x7d' :: X)) build stack := by
              simp [printV]
          _ = readAux X (build ++ [Value.prompt (String.mk s.data)]) stack :=
              readAux_prompt hsplit build stack
          _ = readAux X (build ++ [Value.prompt s]) stack := rfl
      | quote b =>
        simp only [wfAtom] at hwf
        cases b with
        | id =>
          calc readAux (printV (Value.quote Value.id) ++ X) build stack
              = readAux ('[' :: (']' :: X)) build stack := by simp [printV]
            _ = readAux (']' :: X) [] (build :: stack) :=
                readAux_open (']' :: X) build stack
            _ = readAux X (build ++ [Value.quote (catenate [])]) stack :=
                readAux_close X [] build stack
            _ = readAux X (build ++ [Value.quote Value.id]) stack := rfl
        | catenate l =>
          simp only [wfBody, Bool.and_eq_true] at hwf
          have hlne : l ≠ [] := by
            intro hh
            rw [hh] at hwf
            simp at hwf
          have hl : sizeOf l ≤ n := by
            have := hv
            simp at this
            omega
          calc readAux (printV (Value.quote (Value.catenate l)) ++ X)
                build stack
              = readAux ('[' :: (printList l ++ (']' :: X))) build stack := by
                simp [printV]
            _ = readAux (printList l ++ (']' :: X)) [] (build :: stack) :=
                readAux_open _ build stack
            _ = readAux (']' :: X) ([] ++ l) (build :: stack) :=
                ih.2 l hl hwf.2 (']' :: X) [] (build :: stack) rfl
            _ = readAux X (build ++ [Value.quote (catenate l)]) stack := by
                rw [readAux_close]
                rfl
            _ = readAux X (build ++ [Value.quote (Value.catenate l)])
                  stack := by
                rw [catenate_of_atoms hwf.2 hlne]
        | constant nm => simp [wfBody] at hwf
        | var nm => simp [wfBody] at hwf
        | quote b' => simp [wfBody] at hwf
        | text s => simp [wfBody] at hwf
        | prompt s => simp [wfBody] at hwf
    · intro l hl hwf X build stack hX
      cases l with
      | nil => simp [printList]
      | cons v vs =>
        simp only [wfAtoms, Bool.and_eq_true] at hwf
        have hv : sizeOf v ≤ n := by
          simp at hl
          omega
        cases vs with
        | nil => exact ih.1 v hv hwf.1 X build stack hX
        | cons v' vs' =>
          have hvpos := value_sizeOf_pos v
          have hvs : sizeOf (v' :: vs') ≤ n := by
            simp at hl ⊢
            omega
          have hwfv' : wfAtom v' = true := by
            have := hwf.2
            simp only [wfAtoms, Bool.and_eq_true] at this
            exact this.1
          have heq : printList (v :: v' :: vs') ++ X =
              printV v ++ (' ' :: (printList (v' :: vs') ++ X)) := by
            simp [printList]
          rw [heq,
            ih.1 v hv hwf.1 (' ' :: (printList (v' :: vs') ++ X)) build stack
              rfl,
            readAux_ws (by decide) _ _ _,
            dropWhile_ws_printList hwfv',
            ih.2 (v' :: vs') hvs hwf.2 X (build ++ [v]) stack hX]
          simp

/-- Printing a well-formed reader output and reading it back gives the
same value exactly. -/
theorem print_then_read {v : Value} (h : wfBody v = true) :
    Script.read (Value.toString v) = .ok v := by
  cases v with
  | id =>
    simp only [Script.read, Value.toString, printV]
    rw [readAux_nil_nil]
    rfl
  | catenate l =>
    simp only [wfBody, Bool.and_eq_true] at h
    have hlne : l ≠ [] := by
      intro hh
      rw [hh] at h
      simp at h
    simp only [Script.read, Value.toString, printV]
    have hp := (parse_print_pair (sizeOf l)).2 l le_rfl h.2 [] [] [] rfl
    rw [List.append_nil, List.nil_append] at hp
    rw [hp, readAux_nil_nil, catenate_of_atoms h.2 hlne]
  | constant nm => simp [wfBody] at h
  | var nm => simp [wfBody] at h
  | quote b => simp [wfBody] at h
  | text s => simp [wfBody] at h
  | prompt s => simp [wfBody] at h

/-- Every success of the reader is a well-formed value (the invariant of
the scan: the build lists hold only atoms). -/
theorem readAux_wf : ∀ (n : Nat) (src : List Char) (build : List Value)
    (stack : List (List Value)) (v : Value), src.length ≤ n →
    wfAtoms build = true → (∀ l ∈ stack, wfAtoms l = true) →
    readAux src build stack = .ok v → wfBody v = true := by
  intro n
  induction n with
  | zero =>
    intro src build stack v hlen hb hst h
    cases src with
    | cons c cs => simp at hlen
    | nil =>
      cases stack with
      | nil =>
        rw [readAux_nil_nil] at h
        simp only [Except.ok.injEq] at h
        rw [← h]
        exact wfBody_catenate hb
      | cons p st =>
        rw [readAux_nil_cons] at h
        simp at h
  | succ n ih =>
    intro src build stack v hlen hb hst h
    cases src with
    | nil =>
      cases stack with
      | nil =>
        rw [readAux_nil_nil] at h
        simp only [Except.ok.injEq] at h
        rw [← h]
        exact wfBody_catenate hb
      | cons p st =>
        rw [readAux_nil_cons] at h
        simp at h
    | cons c cs =>
      simp only [List.length_cons] at hlen
      by_cases hws : isWS c = true
      · rw [readAux_ws hws] at h
        refine ih _ build stack v ?_ hb hst h
        have := length_dropWhile_le isWS cs
        omega
      · rw [Bool.not_eq_true] at hws
        by_cases hop : c = '['
        · subst hop
          rw [readAux_open] at h
          refine ih cs [] (build :: stack) v (by omega) rfl ?_ h
          intro l hl
          simp only [List.mem_cons] at hl
          cases hl with
          | inl hh => rw [hh]; exact hb
          | inr hh => exact hst l hh
        · by_cases hcl : c = ']'
          · subst hcl
            cases stack with
            | nil =>
              rw [readAux_close_nil] at h
              simp at h
            | cons parent st =>
              rw [readAux_close] at h
              refine ih cs _ st v (by omega) ?_ ?_ h
              · rw [wfAtoms_append]
                simp only [wfAtoms, Bool.and_eq_true, Bool.and_true]
                exact ⟨hst parent (by simp), wfBody_catenate hb⟩
              · intro l hl
                exact hst l (by simp [hl])
          · by_cases hq : c = '"'
            · subst hq
              cases hsp : splitAtChar '"' cs with
              | none =>
                rw [readAux_text_err hsp] at h
                simp at h
              | some pr =>
                obtain ⟨p, r⟩ := pr
                rw [readAux_text hsp] at h
                refine ih r _ stack v ?_ ?_ hst h
                · have := splitAtChar_length hsp
                  omega
                · rw [wfAtoms_append]
                  simp only [wfAtoms, Bool.and_eq_true, Bool.and_true]
                  exact ⟨hb, splitAtChar_not_mem hsp⟩
            · by_cases hbr : c = '\x7b'
              · subst hbr
                cases hsp : splitAtChar '\x7d' cs with
                | none =>
                  rw [readAux_prompt_err hsp] at h
                  simp at h
                | some pr =>
                  obtain ⟨p, r⟩ := pr
                  rw [readAux_prompt hsp] at h
                  refine ih r _ stack v ?_ ?_ hst h
                  · have := splitAtChar_length hsp
                    omega
                  · rw [wfAtoms_append]
                    simp only [wfAtoms, Bool.and_eq_true, Bool.and_true]
                    exact ⟨hb, splitAtChar_not_mem hsp⟩
              · by_cases hup : isUpperA c = true
                · by_cases hcn : isConstName
                      (c :: cs.takeWhile (fun d => !isSep d)) = true
                  · rw [readAux_upper hup cs hcn] at h
                    refine ih _ _ stack v ?_ ?_ hst h
                    · have := length_dropWhile_le (fun d => !isSep d) cs
                      omega
                    · rw [wfAtoms_append]
                      simp only [wfAtoms, Bool.and_eq_true, Bool.and_true]
                      exact ⟨hb, hcn⟩
                  · rw [Bool.not_eq_true] at hcn
                    rw [readAux_upper_err hup cs hcn] at h
                    simp at h
                · rw [Bool.not_eq_true] at hup
                  by_cases hvn : isVarName
                      (c :: cs.takeWhile (fun d => !isSep d)) = true
                  · rw [readAux_lower hws hop hcl hq hbr hup cs hvn] at h
                    refine ih _ _ stack v ?_ ?_ hst h
                    · have := length_dropWhile_le (fun d => !isSep d) cs
                      omega
                    · rw [wfAtoms_append]
                      simp only [wfAtoms, Bool.and_eq_true, Bool.and_true]
                      exact ⟨hb, hvn⟩
                  · rw [Bool.not_eq_true] at hvn
                    rw [readAux_lower_err hws hop hcl hq hbr hup cs hvn] at h
                    simp at h

/-- Every success of `Script.read` is well-formed. -/
theorem read_wf {s : String} {v : Value} (h : Script.read s = .ok v) :
    wfBody v = true :=
  readAux_wf s.data.length s.data [] [] v le_rfl rfl
    (by intro l hl; simp at hl) h

/-- Claim C9 (confirmed): parse, print, parse is a fixed point: for every
source string on which `read` succeeds with value `v`, reading the
rendering of `v` yields `v` again — here as exact structural equality,
which in particular is equality up to flattening and Id elision (the
reader's own `catenate` normalisation already produces flat,
Id-free values). -/
theorem read_print_read (s : String) (v : Value)
    (h : Script.read s = .ok v) :
    Script.read (Value.toString v) = .ok v :=
  print_then_read (read_wf h)

/-- Claim C9 witness: the round trip applied to the parse of
`foo [bar] Baz`. -/
theorem read_print_read_witness :
    Script.read (Value.toString (Value.catenate [Value.var "foo",
      Value.quote (Value.catenate [Value.var "bar"]),
      Value.constant "Baz"])) =
      .ok (Value.catenate [Value.var "foo",
        Value.quote (Value.catenate [Value.var "bar"]),
        Value.constant "Baz"]) :=
  read_print_read "foo [bar] Baz" _
    (by simp +decide [Script.read, readAux]; rfl)

/-! ### Claim C4: Value immutability under reduction.

The source's `pushCode`/`pushData` push a sequence with
`this.code.push(...value.reverse())`, and `Array.prototype.reverse`
reverses the array IN PLACE.  When the reducer splices a Catenate
(`state.pushCode(hand.children)`), the children array of that very
Catenate object is reversed; any Value sharing that Catenate (a copied
Quote on the data stack, a dictionary binding) observes the change.  The
pure model above uses the value-level equivalent (`toReversed`) and so
realises the spec's read-only sharing; the heap model below mirrors the
source exactly, with Catenate objects as references into a store of
mutable children arrays, everything else unchanged. -/

inductive HValue where
  | id : HValue
  | constant (name : String) : HValue
  | var (name : String) : HValue
  | catRef (r : Nat) : HValue
  | quote (body : HValue) : HValue
  | text (value : String) : HValue
  | prompt (value : String) : HValue

/-- The store of children arrays of the allocated Catenate objects. -/
abbrev Store := List (List HValue)

def HValue.body? : HValue → Option HValue
  | .quote b => some b
  | _ => none

def HValue.text? : HValue → Option String
  | .text s => some s
  | _ => none

def hsplice (st : Store) : HValue → List HValue
  | .id => []
  | .catRef r => st.getD r []
  | v => [v]

def hspliceAll (st : Store) : List HValue → List HValue
  | [] => []
  | v :: vs => hsplice st v ++ hspliceAll st vs

/-- The smart constructor over the store: reading `children` of a Catenate
argument is a store lookup; a non-empty buffer allocates a fresh Catenate
object. -/
def hcatenate (st : Store) (values : List HValue) : Store × HValue :=
  match hspliceAll st values with
  | [] => (st, .id)
  | buf => (st ++ [buf], .catRef st.length)

structure HState where
  code : List HValue
  data : List HValue
  sink : List HValue

def HState.thunk : HState → HState
  | ⟨[], data, sink⟩ => ⟨[], [], sink ++ data.reverse⟩
  | ⟨c :: rest, data, sink⟩ => ⟨rest, [], sink ++ data.reverse ++ [c]⟩

def hsplitReset : List HValue → Option (List HValue × List HValue)
  | [] => none
  | v :: vs =>
    match v with
    | .constant n =>
      if n = "Reset" then some ([], vs)
      else
        match hsplitReset vs with
        | none => none
        | some (buf, rest) => some (v :: buf, rest)
    | _ =>
      match hsplitReset vs with
      | none => none
      | some (buf, rest) => some (v :: buf, rest)

abbrev HDict := List (String × HValue)

def hdictGet (d : HDict) (k : String) : Option HValue :=
  match d with
  | [] => none
  | (k', v) :: rest => if k' = k then some v else hdictGet rest k

def hdictSet (d : HDict) (k : String) (v : HValue) : HDict :=
  match d with
  | [] => [(k, v)]
  | (k', v') :: rest =>
    if k' = k then (k, v) :: rest else (k', v') :: hdictSet rest k v

def hdictDelete (d : HDict) (k : String) : HDict :=
  match d with
  | [] => []
  | (k', v') :: rest =>
    if k' = k then rest else (k', v') :: hdictDelete rest k

inductive HStep where
  | next (st : Store) (s : HState) (d : Option HDict)
  | halt (st : Store) (s : HState) (d : Option HDict)
  | fail (hand : HValue)

/-- One dispatch iteration over the store: identical to `step` except
that splicing a Catenate reverses its children array in place in the
store (the observable effect of `push(...children.reverse())`) before the
pre-reversal contents unfold onto code, and `Cat`/`Pair`/`Shift` allocate
their result Catenate in the store. -/
def hstep (st : Store) (s : HState) (d : Option HDict) : HStep :=
  match s.code with
  | [] => .halt st s d
  | hand :: rest =>
    match hand with
    | .catRef r =>
      let cs := st.getD r []
      .next (st.set r cs.reverse) ⟨cs ++ rest, s.data, s.sink⟩ d
    | .var n =>
      match d with
      | none => .halt st s.thunk d
      | some dict =>
        match hdictGet dict n with
        | none => .halt st s.thunk d
        | some b => .next st ⟨b :: rest, s.data, s.sink⟩ d
    | .quote b => .next st ⟨rest, .quote b :: s.data, s.sink⟩ d
    | .text t => .next st ⟨rest, .text t :: s.data, s.sink⟩ d
    | .prompt _ => .halt st s.thunk d
    | .id => .fail .id
    | .constant nm =>
      match nm with
      | "Copy" =>
        match s.data with
        | [] => .next st s.thunk d
        | v :: ds => .next st ⟨rest, v :: v :: ds, s.sink⟩ d
      | "Drop" =>
        match s.data with
        | [] => .next st s.thunk d
        | _ :: ds => .next st ⟨rest, ds, s.sink⟩ d
      | "Swap" =>
        match s.data with
        | t :: u :: ds => .next st ⟨rest, u :: t :: ds, s.sink⟩ d
        | _ => .next st s.thunk d
      | "Cat" =>
        match s.data with
        | t :: u :: ds =>
          match u.body?, t.body? with
          | some lhs, some rhs =>
            match hcatenate st [lhs, rhs] with
            | (st', q) => .next st' ⟨.quote q :: rest, ds, s.sink⟩ d
          | _, _ => .next st s.thunk d
        | _ => .next st s.thunk d
      | "Abs" =>
        match s.data with
        | [] => .next st s.thunk d
        | v :: ds => .next st ⟨rest, .quote v :: ds, s.sink⟩ d
      | "App" =>
        match s.data with
        | t :: ds =>
          match t.body? with
          | some b => .next st ⟨b :: rest, ds, s.sink⟩ d
          | none => .halt st s.thunk d
        | [] => .halt st s.thunk d
      | "Inl" =>
        match s.data with
        | t :: u :: w :: ds =>
          match w.body?, u.body? with
          | some lhs, some _ => .next st ⟨lhs :: rest, t :: ds, s.sink⟩ d
          | _, _ => .halt st s.thunk d
        | _ => .halt st s.thunk d
      | "Inr" =>
        match s.data with
        | t :: u :: w :: ds =>
          match w.body?, u.body? with
          | some _, some rhs => .next st ⟨rhs :: rest, t :: ds, s.sink⟩ d
          | _, _ => .halt st s.thunk d
        | _ => .halt st s.thunk d
      | "Pair" =>
        match s.data with
        | t :: u :: ds =>
          match hcatenate st [u, t] with
          | (st', q) => .next st' ⟨rest, .quote q :: ds, s.sink⟩ d
        | _ => .next st s.thunk d
      | "Shift" =>
        match s.data with
        | t :: ds =>
          match t.body? with
          | some h =>
            match hsplitReset rest with
            | some (buf, cont) =>
              match hcatenate st buf with
              | (st', q) => .next st' ⟨h :: cont, .quote q :: ds, s.sink⟩ d
            | none => .halt st s.thunk d
          | none => .halt st s.thunk d
        | [] => .halt st s.thunk d
      | "Reset" => .halt st s.thunk d
      | "Define" =>
        match d with
        | none => .halt st s.thunk d
        | some dict =>
          match s.data with
          | t :: u :: ds =>
            match t.text?, u.body? with
            | some nm', some b =>
              .next st ⟨rest, ds, s.sink⟩ (some (hdictSet dict nm' b))
            | _, _ => .halt st s.thunk d
          | _ => .halt st s.thunk d
      | "Delete" =>
        match d with
        | none => .halt st s.thunk d
        | some dict =>
          match s.data with
          | t :: ds =>
            match t.text? with
            | some nm' =>
              .next st ⟨rest, ds, s.sink⟩ (some (hdictDelete dict nm'))
            | none => .halt st s.thunk d
          | [] => .halt st s.thunk d
      | _ => .next st s d

def hevalIter : Nat → Store → HState → Option HDict →
    Except HValue (Store × HState × Option HDict)
  | 0, st, s, d => .ok (st, s, d)
  | gas + 1, st, s, d =>
    match s.code with
    | [] => .ok (st, s, d)
    | _ :: _ =>
      match hstep st s d with
      | .next st' s' d' => hevalIter gas st' s' d'
      | .halt st' s' d' => .ok (st', s', d')
      | .fail e => .error e

mutual

/-- The printer over the store; catRef children are looked up, fuel bounds
the reference chasing. -/
def printHV : Nat → Store → HValue → List Char
  | 0, _, _ => []
  | fuel + 1, st, v =>
    match v with
    | .id => []
    | .constant n => n.data
    | .var n => n.data
    | .catRef r => printHList fuel st (st.getD r [])
    | .quote b => '[' :: printHV fuel st b ++ [']']
    | .text s => '"' :: s.data ++ ['"']
    | .prompt s => '\x7b' :: s.data ++ ['\x7d']

def printHList : Nat → Store → List HValue → List Char
  | 0, _, _ => []
  | fuel + 1, st, l =>
    match l with
    | [] => []
    | [v] => printHV fuel st v
    | v :: vs => printHV fuel st v ++ ' ' :: printHList fuel st vs

end

/-- Run the heap-model reducer with no dictionary and render the
residual. -/
def hevalRender (gas : Nat) (st : Store) (init : HValue) : String :=
  match hevalIter gas st ⟨[init], [], []⟩ none with
  | .ok (st', s', _) =>
    match hcatenate st' (s'.sink ++ s'.data.reverse ++ s'.code) with
    | (st'', v) => String.mk (printHV 1000 st'' v)
  | .error _ => "Unknown"

/-- Claim C4 (code_bug): reduction mutates an already-constructed Value.
On `[a b] Copy App` with no dictionary, the Quote on the data stack and
the applied body share one Catenate object; splicing that Catenate
reverses its children array in place, so the residual under the
source-faithful heap model renders `[b a] a b`, while under read-only
sharing (the pure model, as the spec prescribes) it renders `[a b] a b`.
The initial heap value renders `[a b] Copy App`, the program itself. -/
theorem value_mutation_cex :
    String.mk (printHV 1000
      [[HValue.var "a", HValue.var "b"],
       [HValue.quote (HValue.catRef 0), HValue.constant "Copy",
        HValue.constant "App"]] (HValue.catRef 1)) = "[a b] Copy App" ∧
    (evaluate (Value.catenate
      [Value.quote (Value.catenate [Value.var "a", Value.var "b"]),
       Value.constant "Copy", Value.constant "App"]) none 100).map
      Value.toString = .ok "[a b] a b" ∧
    hevalRender 100
      [[HValue.var "a", HValue.var "b"],
       [HValue.quote (HValue.catRef 0), HValue.constant "Copy",
        HValue.constant "App"]] (HValue.catRef 1) = "[b a] a b" ∧
    ("[b a] a b" : String) ≠ "[a b] a b" := by
  refine ⟨rfl, rfl, rfl, by decide⟩
